import Mathlib

/-!
Verification of the `tei2spacy` pipeline notebook.

The notebook flattens TEI documents to plain text while recording
character-offset intervals for `persName` / `placeName` annotation
elements, tokenizes the flattened text with an external model, projects
the intervals onto tokens, merges consecutive same-label tokens into
entity spans, and accumulates the resulting documents into a growable
`DocBin` corpus keyed by source path.

All definitions below are shallow embeddings of the notebook's code:
pure functions become Lean functions, the Python dict of chunks becomes
an association list with dict-update semantics, and the external
collaborators (tokenizer, metadata extractor) become parameters.
-/

namespace Tei2Spacy

/-- A chunk mapping entry: a character interval `(start, stop)` over the
flattened text buffer together with its NER tag.  This embeds the Python
dict `chunks[(offset_start, offset_end)] = ner_tag`. -/
abbrev ChunkMap := List ((Nat × Nat) × String)

/-- Embeds `get_tag_from_char_index(char_start, char_end, entities)`:
a first-match linear scan over the dict items, returning the tag of the
first interval with `start <= char_start and end >= char_end`, else
`None`. -/
def get_tag_from_char_index (char_start char_end : Nat) : ChunkMap → Option String
  | [] => none
  | ((s, e), tag) :: rest =>
    if s ≤ char_start ∧ e ≥ char_end then some tag
    else get_tag_from_char_index char_start char_end rest

/-- Python-dict insertion semantics for the chunk map: assigning to an
existing key overwrites its value in place, otherwise the pair is
appended.  Embeds `chunks[(offset_start, offset_end)] = ner_tag`. -/
def dictInsert (m : ChunkMap) (k : Nat × Nat) (v : String) : ChunkMap :=
  if m.any (fun p => p.1 = k) then
    m.map (fun p => if p.1 = k then (k, v) else p)
  else m ++ [(k, v)]

/-- Python-dict lookup on the chunk map. -/
def dictLookup (m : ChunkMap) (k : Nat × Nat) : Option String :=
  (m.find? (fun p => p.1 = k)).map (·.2)

/-- Modelled from the spec: `tei_element_to_ner_label` lives in
`textentlib.utils`, outside this notebook; the spec describes it as a
fixed mapping from source tag name to entity category. -/
def tei_element_to_ner_label (name : String) : String :=
  if name = "persName" then "PERSON"
  else if name = "placeName" then "LOCATION"
  else ""

/-- A child node of a `<reg>` element, as the flattening loop sees it:
either a plain string node, or an element with a tag name; in both cases
the loop appends the node's text to the output buffer.  `node.text` is
the string payload. -/
inductive Node where
  | str (text : String)
  | elem (name : String) (text : String)
  deriving DecidableEq, Repr

/-- One step of the flattening loop body over a single child `node`,
carrying the state `(output_text, chunks)`.  Embeds the inner `for node
in elem.contents` body of `tei2spacy_simple`: strings append their text;
`persName`/`placeName` elements append their text and record the
interval `(len before, len after)` in `chunks`; other elements append
their text only. -/
def flattenNode (st : String × ChunkMap) (node : Node) : String × ChunkMap :=
  match node with
  | .str t => (st.1 ++ t, st.2)
  | .elem name t =>
    if name = "persName" ∨ name = "placeName" then
      let offset_start := st.1.length
      let buf := st.1 ++ t
      let offset_stop := buf.length
      (buf, dictInsert st.2 (offset_start, offset_stop) (tei_element_to_ner_label name))
    else (st.1 ++ t, st.2)

/-- Embeds the outer `for elem in soup.findAll('reg')` loop of
`tei2spacy_simple`: each `<reg>` element's children are flattened in
order, and a single space is appended after each `<reg>`. -/
def flatten (regs : List (List Node)) : String × ChunkMap :=
  regs.foldl (fun st reg =>
    let st' := reg.foldl flattenNode st
    (st'.1 ++ " ", st'.2)) ("", [])

/-- A token as delivered by the external tokenizer: `i` is the token
index (`token.i`), `idx` the character offset of its first character
(`token.idx`), `len` the length of `token.text`. -/
structure Token where
  i : Nat
  idx : Nat
  len : Nat
  deriving DecidableEq, Repr

/-- The entity currently being built by the merger loop: the Python dict
`entity = {'label': ..., 'chunks': [...]}`, where `chunks` holds the
token indices collected so far (the code stores token objects and later
reads `.i`; we store the indices directly). -/
structure MEntity where
  label : String
  chunks : List Nat
  deriving DecidableEq, Repr

/-- The mutable state of the entity-merger loop in `tei2spacy_simple`:
the accumulated `entities` list, the `entity` dict being built (the
empty dict `{}` is embedded as `⟨"", []⟩`), and the `inside_entity`
flag. -/
structure MState where
  entities : List MEntity
  entity : MEntity
  inside : Bool
  deriving DecidableEq, Repr

/-- The initial merger state: `entities = []`, `entity = {}`,
`inside_entity = False`. -/
def mInit : MState := ⟨[], ⟨"", []⟩, false⟩

/-- One iteration of the `for token in doc` merging loop of
`tei2spacy_simple`, processing the token with index `i` and projected
label `l` (the result of `get_tag_from_char_index`). -/
def mergeStep (s : MState) (i : Nat) (l : Option String) : MState :=
  if s.inside then
    match l with
    | none => ⟨s.entities ++ [s.entity], ⟨"", []⟩, false⟩
    | some lab =>
      if s.entity.label = lab then
        ⟨s.entities, ⟨s.entity.label, s.entity.chunks ++ [i]⟩, true⟩
      else
        ⟨s.entities ++ [s.entity], ⟨lab, [i]⟩, true⟩
  else
    match l with
    | none => s
    | some lab => ⟨s.entities, ⟨lab, [i]⟩, true⟩

/-- Runs the merging loop over the remaining token labels, where `n` is
the index of the next token (`token.i` values in a spaCy doc are the
positions 0, 1, 2, ...). -/
def mergeRun (s : MState) (n : Nat) : List (Option String) → MState
  | [] => s
  | l :: rest => mergeRun (mergeStep s n l) (n + 1) rest

/-- A final entity span in spaCy format, in token indices:
`{'start': entity['chunks'][0].i, 'end': entity['chunks'][-1].i + 1,
'label': entity['label']}`. -/
structure EntitySpan where
  start : Nat
  stop : Nat
  label : String
  deriving DecidableEq, Repr

/-- The `entities_to_add` conversion loop of `tei2spacy_simple`: each
collected entity becomes a span from its first chunk's token index to
its last chunk's token index plus one. -/
def spansOf (es : List MEntity) : List EntitySpan :=
  es.map (fun e => ⟨e.chunks.headD 0, e.chunks.getLastD 0 + 1, e.label⟩)

/-- The complete entity-merger pass of `tei2spacy_simple` over a
projected label sequence (one label per token, in token order): run the
loop from the initial state and convert the accumulated entities.  Note
the code performs no close-at-end step after the loop: an entity still
open when the tokens run out is left in `entity` and never appended. -/
def mergeAll (labels : List (Option String)) : List EntitySpan :=
  spansOf (mergeRun mInit 0 labels).entities

/-- The per-token label projection of `tei2spacy_simple`:
`get_tag_from_char_index(token.idx, token.idx + len(token.text),
chunks)` for each token in order. -/
def projectLabels (chunks : ChunkMap) (toks : List Token) : List (Option String) :=
  toks.map (fun t => get_tag_from_char_index t.idx (t.idx + t.len) chunks)

/-- Bibliographic metadata, as returned by the external
`extract_metadata_from_tei`. -/
structure Metadata where
  author : String
  title : String
  date : String
  deriving DecidableEq, Repr

/-- The `doc.user_data` fields set by `tei2spacy_simple`. -/
structure UserData where
  author : String
  title : String
  publication_date : String
  path : String
  filename : String
  entity_linking : Option String
  deriving DecidableEq, Repr

/-- The document record produced by `tei2spacy_simple`: the flattened
text, the user data, and the injected entity spans (`doc.ents`). -/
structure SDoc where
  text : String
  user_data : UserData
  ents : List EntitySpan
  deriving DecidableEq, Repr

/-- Embeds `tei2spacy_simple`, with the external collaborators as
parameters: `regs` is the sequence of `<reg>` elements' children found
by the markup parser, `tokenize` the external tokenizer (offsets over
the flattened text), `metadata` the result of the external
`extract_metadata_from_tei`, and `path`/`filename` the source file's
path and name.  The body flattens, tokenizes, sets `user_data`,
projects labels onto tokens, merges them into spans, and returns the
assembled document. -/
def tei2spacy_simple (regs : List (List Node)) (tokenize : String → List Token)
    (metadata : Metadata) (path filename : String) : SDoc :=
  let flat := flatten regs
  let output_text := flat.1
  let chunks := flat.2
  let toks := tokenize output_text
  { text := output_text
    user_data :=
      { author := metadata.author
        title := metadata.title
        publication_date := metadata.date
        path := path
        filename := filename
        entity_linking := none }
    ents := mergeAll (projectLabels chunks toks) }

/-- Embeds `spacy_corpus.add(doc)` as invoked by the accumulation cell:
spaCy's `DocBin.add` unconditionally appends the document to the bin;
the notebook performs no duplicate-path check before adding. -/
def corpusAdd (corpus : List SDoc) (doc : SDoc) : List SDoc :=
  corpus ++ [doc]

/-- Embeds the `for doc in docs: spacy_corpus.add(doc)` loop. -/
def corpusAddAll (corpus : List SDoc) (docs : List SDoc) : List SDoc :=
  docs.foldl corpusAdd corpus

/-- Embeds `already_processed_files = set([Path(doc.user_data['path'])
for doc in spacy_corpus.get_docs(...)])`: the source paths of the
documents already in the corpus. -/
def already_processed_files (corpus : List SDoc) : List String :=
  corpus.map (fun d => d.user_data.path)

/-- The notebook's configured `sample_size`. -/
def sample_size : Nat := 100

/-- Embeds the cell that actually defines the batch's candidate set,
`sampled_files = set(Path(corpus_basedir / 'NER').iterdir()) -
already_processed_files`: the directory listing minus the
already-processed paths.  This assignment overwrites the earlier
`sample_files(..., sample_size, ...)` result. -/
def sampledFiles (files : List String) (processed : List String) : List String :=
  files.filter (fun f => !processed.contains f)

/-- Embeds one batch run of the notebook: load the corpus, compute the
already-processed path set, restrict the candidate files to its
complement, process each remaining file with the per-document pipeline
`process`, and append every resulting document to the corpus. -/
def batchRun (process : String → SDoc) (files : List String)
    (corpus : List SDoc) : List SDoc :=
  corpusAddAll corpus ((sampledFiles files (already_processed_files corpus)).map process)

/-- The corpus summary counts aggregated by `print_corpus_summary`:
the number of documents and the total number of entity spans. -/
def corpusSummary (corpus : List SDoc) : Nat × Nat :=
  (corpus.length, (corpus.map (fun d => d.ents.length)).sum)

/-- Modelled from the spec: the Span Projector lookup the spec
prescribes, "a linear or interval-tree scan over intervals sorted by
start, short-circuiting once `interval.start > token.end`"; compared
below with the notebook's first-match scan `get_tag_from_char_index`. -/
def sortedScan (char_start char_end : Nat) : ChunkMap → Option String
  | [] => none
  | ((s, e), tag) :: rest =>
    if char_end < s then none
    else if s ≤ char_start ∧ e ≥ char_end then some tag
    else sortedScan char_start char_end rest

/-- A minimal document with the given source path, used for concrete
corpus counterexamples. -/
def exDoc (p : String) : SDoc :=
  ⟨"", ⟨"", "", "", p, p, none⟩, []⟩

/-- The adjacency relation the merger's output spans satisfy: the next
span starts no earlier than the previous one ends, and two touching
spans never share a label (they would have been merged). -/
def mergerRel (a b : EntitySpan) : Prop :=
  a.stop ≤ b.start ∧ (a.stop = b.start → a.label ≠ b.label)

/-- The loop invariant of the merger state machine, over the exploded
state components (`ents = entities`, `label`/`chunks` = the open
entity, `inside = inside_entity`) after the first `n` tokens: emitted
spans are nonempty, end before token `n`, and are chained by
`mergerRel`; if an entity is open, its chunk list is a nonempty run
ending at token `n - 1` that extends the last emitted span without
touching it under the same label. -/
def MergerInv (ents : List MEntity) (label : String) (chunks : List Nat)
    (inside : Bool) (n : Nat) : Prop :=
  (∀ sp ∈ spansOf ents, sp.start < sp.stop ∧ sp.stop < n) ∧
  List.Chain' mergerRel (spansOf ents) ∧
  (inside = true →
    chunks ≠ [] ∧
    chunks.headD 0 ≤ chunks.getLastD 0 ∧
    chunks.getLastD 0 + 1 = n ∧
    ∀ sp ∈ (spansOf ents).getLast?, sp.stop ≤ chunks.headD 0 ∧
      (sp.stop = chunks.headD 0 → sp.label ≠ label))

end Tei2Spacy

namespace Tei2Spacy

/-! ### Basic lemmas about the projector scan -/

theorem get_tag_eq_none (cs ce : Nat) (l : ChunkMap)
    (h : ∀ p ∈ l, ¬(p.1.1 ≤ cs ∧ ce ≤ p.1.2)) :
    get_tag_from_char_index cs ce l = none := by
  induction l with
  | nil => rfl
  | cons hd tl ih =>
    obtain ⟨⟨s, e⟩, tag⟩ := hd
    have hhd := h ((s, e), tag) (List.mem_cons_self _ _)
    simp only [get_tag_from_char_index, if_neg hhd]
    exact ih fun p hp => h p (List.mem_cons_of_mem _ hp)

/-- Claim C3: the first-match scan returns a label if and only if some
interval of the chunk map contains the token's character range; in
particular a token whose range exactly equals an interval is labeled,
and a token that merely overlaps an interval is not. -/
theorem get_tag_isSome_iff_containment (cs ce : Nat) (entities : ChunkMap) :
    (get_tag_from_char_index cs ce entities).isSome ↔
      ∃ p ∈ entities, p.1.1 ≤ cs ∧ ce ≤ p.1.2 := by
  induction entities with
  | nil => simp [get_tag_from_char_index]
  | cons hd tl ih =>
    obtain ⟨⟨s, e⟩, tag⟩ := hd
    by_cases h : s ≤ cs ∧ e ≥ ce
    · simp only [get_tag_from_char_index, if_pos h]
      constructor
      · intro _
        exact ⟨((s, e), tag), List.mem_cons_self _ _, h.1, h.2⟩
      · intro _
        rfl
    · simp only [get_tag_from_char_index, if_neg h, ih]
      constructor
      · rintro ⟨p, hp, hcont⟩
        exact ⟨p, List.mem_cons_of_mem _ hp, hcont⟩
      · rintro ⟨p, hp, hcont⟩
        rcases List.mem_cons.mp hp with rfl | hmem
        · exact absurd ⟨hcont.1, hcont.2⟩ h
        · exact ⟨p, hmem, hcont⟩

/-- Claim C1: the code drops an entity still open when the token
sequence ends.  On a document flattening to a single annotated name
that the tokenizer returns as one token, the projected label sequence
is a single labeled token, and `tei2spacy_simple` emits no entity span
at all — the spec instead requires the trailing run to be closed at the
sequence end and emitted as the span `[0, 1)`. -/
theorem trailing_open_entity_is_dropped :
    (tei2spacy_simple [[Node.elem "persName" "Jean"]]
        (fun _ => [⟨0, 0, 4⟩]) ⟨"", "", ""⟩ "p" "f").ents = [] ∧
    projectLabels (flatten [[Node.elem "persName" "Jean"]]).2 [⟨0, 0, 4⟩] =
      [some "PERSON"] := by
  constructor <;> rfl

/-- Claim C9: every document produced by `tei2spacy_simple` carries
`user_data` fields `author`, `title`, `publication_date`, `path` and
`filename` taken from the source file's metadata and path, and an
`entity_linking` field that is always `none`. -/
theorem tei2spacy_user_data (regs : List (List Node)) (tokenize : String → List Token)
    (metadata : Metadata) (path filename : String) :
    (tei2spacy_simple regs tokenize metadata path filename).user_data =
      ⟨metadata.author, metadata.title, metadata.date, path, filename, none⟩ :=
  rfl

/-- Claim C6 (counterexample): a `persName` element with empty text
yields the zero-length interval `(0, 0)`, and that interval is stored
in the chunk map handed to the Span Projector rather than dropped. -/
theorem empty_annotation_interval_is_kept :
    (flatten [[Node.elem "persName" ""]]).2 = [((0, 0), "PERSON")] :=
  rfl

/-- Claim C6 (amended): zero-length (and degenerate) intervals are kept
in the chunk map, but they never affect the projector: for every token
with a nonempty character range, removing all intervals with
`start >= end` leaves the projected label unchanged. -/
theorem degenerate_intervals_do_not_label (cs ce : Nat) (chunks : ChunkMap)
    (h : cs < ce) :
    get_tag_from_char_index cs ce chunks =
      get_tag_from_char_index cs ce (chunks.filter fun p => decide (p.1.1 < p.1.2)) := by
  induction chunks with
  | nil => rfl
  | cons hd tl ih =>
    obtain ⟨⟨s, e⟩, tag⟩ := hd
    by_cases hm : s ≤ cs ∧ e ≥ ce
    · have hse : s < e := lt_of_le_of_lt hm.1 (lt_of_lt_of_le h hm.2)
      simp only [List.filter_cons, decide_eq_true_eq]
      rw [if_pos (by simpa using hse)]
      simp [get_tag_from_char_index, if_pos hm]
    · by_cases hse : s < e
      · simp only [List.filter_cons, decide_eq_true_eq]
        rw [if_pos (by simpa using hse)]
        simp only [get_tag_from_char_index, if_neg hm]
        exact ih
      · simp only [List.filter_cons, decide_eq_true_eq]
        rw [if_neg (by simpa using hse)]
        simp only [get_tag_from_char_index, if_neg hm]
        exact ih

theorem degenerate_intervals_do_not_label_witness :
    (0 : Nat) < 1 ∧
      get_tag_from_char_index 0 1 [((0, 0), "PERSON")] =
        get_tag_from_char_index 0 1
          ([((0, 0), "PERSON")].filter fun p => decide (p.1.1 < p.1.2)) :=
  ⟨by decide, degenerate_intervals_do_not_label 0 1 [((0, 0), "PERSON")] (by decide)⟩

/-- Claim C2 (counterexample): `spacy_corpus.add` is an unconditional
append with no duplicate-path check: adding a document whose path is
already in the corpus succeeds and leaves two documents sharing the
source path "a". -/
theorem duplicate_path_append_succeeds :
    already_processed_files (corpusAdd (corpusAdd [] (exDoc "a")) (exDoc "a")) =
      ["a", "a"] ∧ ¬ (["a", "a"] : List String).Nodup := by
  constructor
  · rfl
  · decide

/-- Claim C5 (counterexample): the cell defining the batch's candidate
set overwrites the result of `sample_files` with the full complement of
the already-processed set, so with 101 unprocessed candidate files the
run processes 101 documents, exceeding the configured `sample_size` of
100. -/
theorem batch_exceeds_sample_size :
    ¬ ((sampledFiles ((List.range 101).map (fun n => toString n)) []).length
        ≤ sample_size) := by
  have hlen : (sampledFiles ((List.range 101).map (fun n => toString n)) []).length
      = 101 := by
    simp [sampledFiles]
  rw [hlen]
  decide

/-- Claim C5 (amended): the number of new documents processed equals
the number of candidate files not already processed — the candidate set
is exactly the complement of the already-processed set within the
directory listing — and is bounded by the total file count, not by the
configured sample size. -/
theorem sampled_files_complement (files processed : List String) :
    (∀ f, f ∈ sampledFiles files processed ↔ f ∈ files ∧ f ∉ processed) ∧
    (sampledFiles files processed).length ≤ files.length := by
  constructor
  · intro f
    simp [sampledFiles, List.mem_filter]
  · exact List.length_filter_le _ _

/-! ### Corpus accumulation and batch lemmas -/

theorem corpusAddAll_eq_append (corpus docs : List SDoc) :
    corpusAddAll corpus docs = corpus ++ docs := by
  induction docs generalizing corpus with
  | nil => simp [corpusAddAll]
  | cons d ds ih =>
    simp only [corpusAddAll, List.foldl_cons] at *
    rw [ih (corpusAdd corpus d)]
    simp [corpusAdd]

theorem mem_sampledFiles (files processed : List String) (f : String) :
    f ∈ sampledFiles files processed ↔ f ∈ files ∧ f ∉ processed := by
  simp [sampledFiles, List.mem_filter]

/-- Claim C2 (amended): the append operation performs no duplicate
check and always appends, but when the appended batch is restricted to
paths not already in the corpus (as the resumability filtering
guarantees) and has no internal duplicates, the path-uniqueness
invariant of the corpus is preserved. -/
theorem filtered_appends_preserve_uniqueness (corpus docs : List SDoc)
    (hnd : (already_processed_files corpus).Nodup)
    (hdocs : (docs.map fun d => d.user_data.path).Nodup)
    (hdisj : ∀ d ∈ docs, d.user_data.path ∉ already_processed_files corpus) :
    corpusAddAll corpus docs = corpus ++ docs ∧
    (already_processed_files (corpusAddAll corpus docs)).Nodup := by
  refine ⟨corpusAddAll_eq_append corpus docs, ?_⟩
  rw [corpusAddAll_eq_append]
  unfold already_processed_files at *
  rw [List.map_append, List.nodup_append]
  refine ⟨hnd, hdocs, ?_⟩
  intro a ha hb
  rw [List.mem_map] at hb
  obtain ⟨d, hd, rfl⟩ := hb
  exact hdisj d hd ha

theorem filtered_appends_preserve_uniqueness_witness :
    corpusAddAll [exDoc "a"] [exDoc "b"] = [exDoc "a"] ++ [exDoc "b"] ∧
    (already_processed_files (corpusAddAll [exDoc "a"] [exDoc "b"])).Nodup :=
  filtered_appends_preserve_uniqueness [exDoc "a"] [exDoc "b"]
    (by decide) (by decide) (by decide)

theorem paths_append (c d : List SDoc) :
    already_processed_files (c ++ d) =
      already_processed_files c ++ already_processed_files d := by
  simp [already_processed_files]

theorem paths_map_process (process : String → SDoc) (fs : List String)
    (hpath : ∀ f, (process f).user_data.path = f) :
    already_processed_files (fs.map process) = fs := by
  unfold already_processed_files
  rw [List.map_map]
  have h : ∀ f ∈ fs, ((fun d => d.user_data.path) ∘ process) f = id f :=
    fun f _ => hpath f
  rw [List.map_congr_left h, List.map_id]

theorem paths_batchRun (process : String → SDoc) (files : List String)
    (corpus : List SDoc) (hpath : ∀ f, (process f).user_data.path = f) :
    already_processed_files (batchRun process files corpus) =
      already_processed_files corpus ++
        sampledFiles files (already_processed_files corpus) := by
  unfold batchRun
  rw [corpusAddAll_eq_append, paths_append, paths_map_process process _ hpath]

/-- Claim C4: running the batch twice against the same initial store
yields the same corpus state as running it once — the second run's
candidate set is empty because every input file is already in the
processed-path set — hence identical membership, identical summary
counts, and (given distinct input files and an initially
duplicate-free store) no duplicate documents. -/
theorem batch_rerun_idempotent (process : String → SDoc) (files : List String)
    (corpus : List SDoc)
    (hpath : ∀ f, (process f).user_data.path = f)
    (hfiles : files.Nodup)
    (hcorpus : (already_processed_files corpus).Nodup) :
    batchRun process files (batchRun process files corpus) =
      batchRun process files corpus ∧
    corpusSummary (batchRun process files (batchRun process files corpus)) =
      corpusSummary (batchRun process files corpus) ∧
    (already_processed_files (batchRun process files corpus)).Nodup := by
  have hsecond :
      sampledFiles files (already_processed_files (batchRun process files corpus))
        = [] := by
    rw [paths_batchRun process files corpus hpath]
    unfold sampledFiles
    rw [List.filter_eq_nil_iff]
    intro f hf
    simp only [Bool.not_eq_true', Bool.not_eq_false, List.elem_eq_mem,
      decide_eq_true_eq, List.mem_append]
    by_cases hin : f ∈ already_processed_files corpus
    · exact Or.inl hin
    · refine Or.inr ?_
      rw [List.mem_filter]
      exact ⟨hf, by simp [hin]⟩
  have hrun : batchRun process files (batchRun process files corpus) =
      batchRun process files corpus := by
    conv_lhs => rw [batchRun, hsecond]
    simp [corpusAddAll_eq_append]
  refine ⟨hrun, by rw [hrun], ?_⟩
  rw [paths_batchRun process files corpus hpath, List.nodup_append]
  refine ⟨hcorpus, (List.Nodup.filter _ hfiles), ?_⟩
  intro a ha hb
  rw [mem_sampledFiles] at hb
  exact hb.2 ha

theorem batch_rerun_idempotent_witness :
    batchRun exDoc ["a"] (batchRun exDoc ["a"] []) = batchRun exDoc ["a"] [] ∧
    corpusSummary (batchRun exDoc ["a"] (batchRun exDoc ["a"] [])) =
      corpusSummary (batchRun exDoc ["a"] []) ∧
    (already_processed_files (batchRun exDoc ["a"] [])).Nodup :=
  batch_rerun_idempotent exDoc ["a"] [] (fun _ => rfl) (by decide) (by decide)

/-! ### Equivalence of the two projector lookup strategies -/

/-- Claim C8: over a chunk map of well-formed intervals that is sorted
by start and pairwise non-overlapping, at most one interval contains a
given nonempty token range, and the notebook's first-match linear scan
agrees with the spec's sorted scan that short-circuits once
`interval.start > token.end`. -/
theorem scan_strategies_equivalent (cs ce : Nat) (entities : ChunkMap)
    (hw : ∀ p ∈ entities, p.1.1 ≤ p.1.2)
    (hs : entities.Pairwise fun p q => p.1.2 ≤ q.1.1)
    (hce : cs < ce) :
    entities.countP (fun p => decide (p.1.1 ≤ cs ∧ ce ≤ p.1.2)) ≤ 1 ∧
    get_tag_from_char_index cs ce entities = sortedScan cs ce entities := by
  induction entities with
  | nil => exact ⟨by simp, rfl⟩
  | cons hd tl ih =>
    obtain ⟨⟨s, e⟩, tag⟩ := hd
    have hw' : ∀ p ∈ tl, p.1.1 ≤ p.1.2 :=
      fun p hp => hw p (List.mem_cons_of_mem _ hp)
    rw [List.pairwise_cons] at hs
    obtain ⟨hrel, hs'⟩ := hs
    obtain ⟨ih1, ih2⟩ := ih hw' hs'
    by_cases hm : s ≤ cs ∧ e ≥ ce
    · have htl0 : tl.countP (fun p => decide (p.1.1 ≤ cs ∧ ce ≤ p.1.2)) = 0 := by
        rw [List.countP_eq_zero]
        intro q hq
        have h1 : e ≤ q.1.1 := hrel q hq
        have h2 : ce ≤ e := hm.2
        simp only [decide_eq_true_eq, not_and]
        intro hq1
        omega
      constructor
      · rw [List.countP_cons, htl0]
        split <;> omega
      · have hnsc : ¬ ce < s := by omega
        simp only [get_tag_from_char_index, sortedScan, if_pos hm, if_neg hnsc]
    · constructor
      · rw [List.countP_cons]
        have : ¬ ((s, e), tag).1.1 ≤ cs ∨ ¬ ce ≤ ((s, e), tag).1.2 := by
          by_contra hc
          push_neg at hc
          exact hm ⟨hc.1, hc.2⟩
        have hd0 : (decide ((((s, e), tag)).1.1 ≤ cs ∧ ce ≤ (((s, e), tag)).1.2)) = false := by
          simp only [decide_eq_false_iff_not, not_and]
          intro h1 h2
          exact hm ⟨h1, h2⟩
        rw [hd0]
        simpa using ih1
      · by_cases hsc : ce < s
        · have : get_tag_from_char_index cs ce tl = none := by
            apply get_tag_eq_none
            intro q hq
            have h1 : e ≤ q.1.1 := hrel q hq
            have h2 : s ≤ e := hw ((s, e), tag) (List.mem_cons_self _ _)
            simp only [not_and]
            intro hq1
            omega
          simp only [get_tag_from_char_index, sortedScan, if_neg hm, if_pos hsc, this]
        · simp only [get_tag_from_char_index, sortedScan, if_neg hm, if_neg hsc, ih2]

/-! ### Chunk-map (Python dict) lemmas and the flatten invariant -/

theorem mem_dictInsert (m : ChunkMap) (k : Nat × Nat) (v : String) (p : (Nat × Nat) × String)
    (hp : p ∈ dictInsert m k v) : p = (k, v) ∨ p ∈ m := by
  unfold dictInsert at hp
  split at hp
  · rw [List.mem_map] at hp
    obtain ⟨q, hq, hq2⟩ := hp
    by_cases hk : q.1 = k
    · rw [if_pos hk] at hq2
      exact Or.inl hq2.symm
    · rw [if_neg hk] at hq2
      exact Or.inr (hq2 ▸ hq)
  · rw [List.mem_append] at hp
    rcases hp with hp | hp
    · exact Or.inr hp
    · rw [List.mem_singleton] at hp
      exact Or.inl hp

theorem dictInsert_keys_cases (m : ChunkMap) (k : Nat × Nat) (v : String) :
    (dictInsert m k v).map Prod.fst = m.map Prod.fst ∨
    ((dictInsert m k v).map Prod.fst = m.map Prod.fst ++ [k] ∧
      k ∉ m.map Prod.fst) := by
  unfold dictInsert
  by_cases h : m.any (fun p => p.1 = k) = true
  · rw [if_pos h]
    refine Or.inl ?_
    rw [List.map_map]
    apply List.map_congr_left
    intro q _
    by_cases hk : q.1 = k
    · simp [hk]
    · simp [hk]
  · rw [if_neg h]
    refine Or.inr ⟨by rw [List.map_append]; rfl, ?_⟩
    intro hk
    rw [List.mem_map] at hk
    obtain ⟨q, hq, hq2⟩ := hk
    exact h (List.any_eq_true.mpr ⟨q, hq, by simpa using hq2⟩)

theorem dictInsert_keys_nodup (m : ChunkMap) (k : Nat × Nat) (v : String)
    (hnd : (m.map Prod.fst).Nodup) :
    ((dictInsert m k v).map Prod.fst).Nodup := by
  rcases dictInsert_keys_cases m k v with h | ⟨h, hfresh⟩
  · rw [h]
    exact hnd
  · rw [h, List.nodup_append]
    refine ⟨hnd, List.nodup_singleton k, ?_⟩
    intro a ha hb
    rw [List.mem_singleton] at hb
    exact hfresh (hb ▸ ha)

theorem find?_dictInsert_overwrite (m : ChunkMap) (k : Nat × Nat) (v : String)
    (h : m.any (fun p => p.1 = k) = true) :
    (m.map fun p => if p.1 = k then (k, v) else p).find?
      (fun p => p.1 = k) = some (k, v) := by
  induction m with
  | nil => simp at h
  | cons q m ih =>
    by_cases hk : q.1 = k
    · simp [List.find?, hk]
    · rw [List.any_cons] at h
      have h' : m.any (fun p => p.1 = k) = true := by
        rcases Bool.or_eq_true_iff.mp h with h1 | h1
        · exact absurd (of_decide_eq_true h1) hk
        · exact h1
      simp only [List.map_cons, if_neg hk]
      rw [List.find?_cons_of_neg _ (by simpa using hk)]
      exact ih h'

theorem find?_append_fresh (m : ChunkMap) (k : Nat × Nat) (v : String)
    (h : ∀ p ∈ m, p.1 ≠ k) :
    (m ++ [(k, v)]).find? (fun p => p.1 = k) = some (k, v) := by
  induction m with
  | nil => simp [List.find?]
  | cons q m ih =>
    rw [List.cons_append, List.find?_cons_of_neg _
      (by simpa using h q (List.mem_cons_self _ _))]
    exact ih fun p hp => h p (List.mem_cons_of_mem _ hp)

theorem dictLookup_dictInsert (m : ChunkMap) (k : Nat × Nat) (v : String) :
    dictLookup (dictInsert m k v) k = some v := by
  unfold dictLookup dictInsert
  by_cases h : m.any (fun p => p.1 = k) = true
  · rw [if_pos h, find?_dictInsert_overwrite m k v h]
    rfl
  · rw [if_neg h, find?_append_fresh m k v]
    · rfl
    · intro p hp hk
      exact h (List.any_eq_true.mpr ⟨p, hp, by simpa using hk⟩)

theorem flattenNode_inv (st : String × ChunkMap) (node : Node)
    (hnd : (st.2.map Prod.fst).Nodup)
    (hb : ∀ p ∈ st.2, p.1.1 ≤ p.1.2 ∧ p.1.2 ≤ st.1.length) :
    ((flattenNode st node).2.map Prod.fst).Nodup ∧
    (∀ p ∈ (flattenNode st node).2,
      p.1.1 ≤ p.1.2 ∧ p.1.2 ≤ (flattenNode st node).1.length) ∧
    st.1.length ≤ (flattenNode st node).1.length := by
  cases node with
  | str t =>
    have heq : flattenNode st (Node.str t) = (st.1 ++ t, st.2) := by
      simp only [flattenNode]
    rw [heq]
    refine ⟨hnd, fun p hp => ?_, ?_⟩
    · have := hb p hp
      rw [String.length_append]
      omega
    · rw [String.length_append]
      omega
  | elem name t =>
    by_cases hname : name = "persName" ∨ name = "placeName"
    · have heq : flattenNode st (Node.elem name t) =
          (st.1 ++ t, dictInsert st.2 (st.1.length, (st.1 ++ t).length)
            (tei_element_to_ner_label name)) := by
        simp only [flattenNode, if_pos hname]
      rw [heq]
      refine ⟨dictInsert_keys_nodup _ _ _ hnd, fun p hp => ?_, ?_⟩
      · rcases mem_dictInsert _ _ _ _ hp with rfl | hp
        · refine ⟨?_, ?_⟩
          · show st.1.length ≤ (st.1 ++ t).length
            rw [String.length_append]
            omega
          · exact le_refl _
        · have := hb p hp
          rw [String.length_append]
          omega
      · rw [String.length_append]
        omega
    · have heq : flattenNode st (Node.elem name t) = (st.1 ++ t, st.2) := by
        simp only [flattenNode, if_neg hname]
      rw [heq]
      refine ⟨hnd, fun p hp => ?_, ?_⟩
      · have := hb p hp
        rw [String.length_append]
        omega
      · rw [String.length_append]
        omega

theorem flattenFold_inv (nodes : List Node) (st : String × ChunkMap)
    (hnd : (st.2.map Prod.fst).Nodup)
    (hb : ∀ p ∈ st.2, p.1.1 ≤ p.1.2 ∧ p.1.2 ≤ st.1.length) :
    (((nodes.foldl flattenNode st).2.map Prod.fst).Nodup) ∧
    (∀ p ∈ (nodes.foldl flattenNode st).2,
      p.1.1 ≤ p.1.2 ∧ p.1.2 ≤ (nodes.foldl flattenNode st).1.length) ∧
    st.1.length ≤ (nodes.foldl flattenNode st).1.length := by
  induction nodes generalizing st with
  | nil => exact ⟨hnd, hb, le_refl _⟩
  | cons node nodes ih =>
    obtain ⟨h1, h2, h3⟩ := flattenNode_inv st node hnd hb
    obtain ⟨g1, g2, g3⟩ := ih (flattenNode st node) h1 h2
    exact ⟨g1, g2, le_trans h3 g3⟩

theorem flatten_inv (regs : List (List Node)) :
    ((flatten regs).2.map Prod.fst).Nodup ∧
    ∀ p ∈ (flatten regs).2, p.1.1 ≤ p.1.2 ∧ p.1.2 ≤ (flatten regs).1.length := by
  suffices h : ∀ (st : String × ChunkMap),
      (st.2.map Prod.fst).Nodup →
      (∀ p ∈ st.2, p.1.1 ≤ p.1.2 ∧ p.1.2 ≤ st.1.length) →
      (((regs.foldl (fun st reg =>
          let st' := reg.foldl flattenNode st
          (st'.1 ++ " ", st'.2)) st).2.map Prod.fst).Nodup) ∧
      ∀ p ∈ (regs.foldl (fun st reg =>
          let st' := reg.foldl flattenNode st
          (st'.1 ++ " ", st'.2)) st).2,
        p.1.1 ≤ p.1.2 ∧ p.1.2 ≤ (regs.foldl (fun st reg =>
          let st' := reg.foldl flattenNode st
          (st'.1 ++ " ", st'.2)) st).1.length by
    exact h ("", []) (by simp) (by simp)
  induction regs with
  | nil => exact fun st hnd hb => ⟨hnd, hb⟩
  | cons reg regs ih =>
    intro st hnd hb
    obtain ⟨h1, h2, _⟩ := flattenFold_inv reg st hnd hb
    refine ih _ h1 ?_
    intro p hp
    have := h2 p hp
    rw [String.length_append]
    omega

/-- Claim C10: the flattener's chunk map is keyed by the offset pair,
so each distinct interval carries at most one category (its key list is
duplicate-free and every interval is well-formed and within the
buffer); inserting an already-present key overwrites, so the surviving
entry carries the later element's category; and a key collision is
possible only for an annotation whose text is empty (its interval then
coinciding with the earlier zero-length one at that position). -/
theorem chunk_map_key_uniqueness (regs : List (List Node)) :
    ((flatten regs).2.map Prod.fst).Nodup ∧
    (∀ p ∈ (flatten regs).2, p.1.1 ≤ p.1.2 ∧ p.1.2 ≤ (flatten regs).1.length) ∧
    (∀ (m : ChunkMap) (k : Nat × Nat) (v : String),
      dictLookup (dictInsert m k v) k = some v) ∧
    (∀ (b t : String) (chunks : ChunkMap),
      (∀ p ∈ chunks, p.1.2 ≤ b.length) →
      (b.length, (b ++ t).length) ∈ chunks.map Prod.fst → t = "") := by
  obtain ⟨h1, h2⟩ := flatten_inv regs
  refine ⟨h1, h2, fun m k v => dictLookup_dictInsert m k v, ?_⟩
  intro b t chunks hb hmem
  rw [List.mem_map] at hmem
  obtain ⟨p, hp, hk⟩ := hmem
  have h2 : p.1.2 ≤ b.length := hb p hp
  have h3 : p.1.2 = (b ++ t).length := by rw [hk]
  rw [String.length_append] at h3
  have h4 : t.length = 0 := by omega
  cases t with
  | mk data =>
    simp only [String.length] at h4
    have h5 : data = [] := List.length_eq_zero.mp h4
    rw [h5]

theorem scan_strategies_equivalent_witness :
    ([((0, 2), "A")] : ChunkMap).countP
        (fun p => decide (p.1.1 ≤ 0 ∧ 1 ≤ p.1.2)) ≤ 1 ∧
    get_tag_from_char_index 0 1 [((0, 2), "A")] = sortedScan 0 1 [((0, 2), "A")] :=
  scan_strategies_equivalent 0 1 [((0, 2), "A")] (by decide) (by decide) (by decide)

/-! ### Merger state-machine invariants -/

theorem spansOf_append (es fs : List MEntity) :
    spansOf (es ++ fs) = spansOf es ++ spansOf fs :=
  List.map_append _ _ _

theorem spansOf_singleton (e : MEntity) :
    spansOf [e] = [⟨e.chunks.headD 0, e.chunks.getLastD 0 + 1, e.label⟩] :=
  rfl

theorem inv_close (es : List MEntity) (e : MEntity) (n : Nat)
    (h : MergerInv es e.label e.chunks true n) :
    MergerInv (es ++ [e]) "" [] false (n + 1) := by
  obtain ⟨h1, h2, h3⟩ := h
  obtain ⟨hne, hhl, hlast, hrel⟩ := h3 rfl
  refine ⟨?_, ?_, ?_⟩
  · intro sp hsp
    rw [spansOf_append] at hsp
    rcases List.mem_append.mp hsp with hsp | hsp
    · have := h1 sp hsp
      omega
    · have hsp' : sp = ⟨e.chunks.headD 0, e.chunks.getLastD 0 + 1, e.label⟩ := by
        rw [spansOf_singleton, List.mem_singleton] at hsp
        exact hsp
      subst hsp'
      refine ⟨?_, ?_⟩
      · show e.chunks.headD 0 < e.chunks.getLastD 0 + 1
        omega
      · show e.chunks.getLastD 0 + 1 < n + 1
        omega
  · rw [spansOf_append]
    rw [List.chain'_append]
    refine ⟨h2, by rw [spansOf_singleton]; exact List.chain'_singleton _, ?_⟩
    intro x hx y hy
    rw [spansOf_singleton] at hy
    have hy' : (⟨e.chunks.headD 0, e.chunks.getLastD 0 + 1, e.label⟩ : EntitySpan) = y := by
      simpa using hy
    rw [← hy']
    exact hrel x hx
  · intro h'
    cases h'

theorem inv_extend (es : List MEntity) (e : MEntity) (n : Nat)
    (h : MergerInv es e.label e.chunks true n) :
    MergerInv es e.label (e.chunks ++ [n]) true (n + 1) := by
  obtain ⟨h1, h2, h3⟩ := h
  obtain ⟨hne, hhl, hlast, hrel⟩ := h3 rfl
  have hhead : (e.chunks ++ [n]).headD 0 = e.chunks.headD 0 := by
    cases hc : e.chunks with
    | nil => exact absurd hc hne
    | cons a t => rfl
  refine ⟨fun sp hsp => ⟨(h1 sp hsp).1, by have := (h1 sp hsp).2; omega⟩, h2, fun _ => ?_⟩
  refine ⟨by simp, ?_, ?_, ?_⟩
  · rw [hhead, List.getLastD_concat]
    omega
  · rw [List.getLastD_concat]
  · intro sp hsp
    rw [hhead]
    exact hrel sp hsp

theorem inv_switch (es : List MEntity) (e : MEntity) (n : Nat) (lab : String)
    (hne2 : e.label ≠ lab)
    (h : MergerInv es e.label e.chunks true n) :
    MergerInv (es ++ [e]) lab [n] true (n + 1) := by
  obtain ⟨c1, c2, _⟩ := inv_close es e n h
  obtain ⟨h1, h2, h3⟩ := h
  obtain ⟨hne, hhl, hlast, hrel⟩ := h3 rfl
  refine ⟨c1, c2, fun _ => ?_⟩
  refine ⟨by simp, le_refl _, rfl, ?_⟩
  intro sp hsp
  rw [spansOf_append, spansOf_singleton, List.getLast?_concat] at hsp
  have hsp' : (⟨e.chunks.headD 0, e.chunks.getLastD 0 + 1, e.label⟩ : EntitySpan) = sp := by
    simpa using hsp
  rw [← hsp']
  constructor
  · show e.chunks.getLastD 0 + 1 ≤ n
    omega
  · intro _
    exact hne2

theorem inv_open (es : List MEntity) (n : Nat) (lab : String)
    (h1 : ∀ sp ∈ spansOf es, sp.start < sp.stop ∧ sp.stop < n)
    (h2 : List.Chain' mergerRel (spansOf es)) :
    MergerInv es lab [n] true (n + 1) := by
  refine ⟨fun sp hsp => ⟨(h1 sp hsp).1, by have := (h1 sp hsp).2; omega⟩, h2, fun _ => ?_⟩
  refine ⟨by simp, le_refl _, rfl, ?_⟩
  intro sp hsp
  have hmem : sp ∈ spansOf es := List.mem_of_mem_getLast? hsp
  have hlt := (h1 sp hmem).2
  constructor
  · show sp.stop ≤ n
    omega
  · intro hEq
    have hEq' : sp.stop = n := hEq
    exact absurd hEq' (by omega)

theorem inv_outside_mono (es : List MEntity) (label : String) (chunks : List Nat)
    (n : Nat) (h : MergerInv es label chunks false n) :
    MergerInv es label chunks false (n + 1) := by
  obtain ⟨h1, h2, _⟩ := h
  refine ⟨fun sp hsp => ⟨(h1 sp hsp).1, by have := (h1 sp hsp).2; omega⟩, h2, ?_⟩
  intro h'
  cases h'

theorem mergeStep_inv (s : MState) (n : Nat) (l : Option String)
    (h : MergerInv s.entities s.entity.label s.entity.chunks s.inside n) :
    MergerInv (mergeStep s n l).entities (mergeStep s n l).entity.label
      (mergeStep s n l).entity.chunks (mergeStep s n l).inside (n + 1) := by
  by_cases hin : s.inside = true
  · cases l with
    | none =>
      have hstep : mergeStep s n none = ⟨s.entities ++ [s.entity], ⟨"", []⟩, false⟩ := by
        unfold mergeStep
        rw [if_pos hin]
      rw [hstep]
      rw [hin] at h
      exact inv_close s.entities s.entity n h
    | some lab =>
      by_cases heq : s.entity.label = lab
      · have hstep : mergeStep s n (some lab) =
            ⟨s.entities, ⟨s.entity.label, s.entity.chunks ++ [n]⟩, true⟩ := by
          unfold mergeStep
          rw [if_pos hin]
          exact if_pos heq
        rw [hstep]
        rw [hin] at h
        exact inv_extend s.entities s.entity n h
      · have hstep : mergeStep s n (some lab) =
            ⟨s.entities ++ [s.entity], ⟨lab, [n]⟩, true⟩ := by
          unfold mergeStep
          rw [if_pos hin]
          exact if_neg heq
        rw [hstep]
        rw [hin] at h
        exact inv_switch s.entities s.entity n lab heq h
  · have hfb : s.inside = false := by
      revert hin
      cases s.inside <;> simp
    cases l with
    | none =>
      have hstep : mergeStep s n none = s := by
        unfold mergeStep
        rw [if_neg hin]
      rw [hstep]
      rw [hfb] at h ⊢
      exact inv_outside_mono s.entities s.entity.label s.entity.chunks n h
    | some lab =>
      have hstep : mergeStep s n (some lab) =
          ⟨s.entities, ⟨lab, [n]⟩, true⟩ := by
        unfold mergeStep
        rw [if_neg hin]
      rw [hstep]
      obtain ⟨h1, h2, _⟩ := h
      exact inv_open s.entities n lab h1 h2

theorem mergeRun_inv (labels : List (Option String)) :
    ∀ (s : MState) (n : Nat),
      MergerInv s.entities s.entity.label s.entity.chunks s.inside n →
      MergerInv (mergeRun s n labels).entities (mergeRun s n labels).entity.label
        (mergeRun s n labels).entity.chunks (mergeRun s n labels).inside
        (n + labels.length) := by
  induction labels with
  | nil =>
    intro s n h
    simpa [mergeRun] using h
  | cons l rest ih =>
    intro s n h
    have hrec := ih (mergeStep s n l) (n + 1) (mergeStep_inv s n l h)
    have harith : n + (l :: rest).length = n + 1 + rest.length := by
      simp only [List.length_cons]
      omega
    rw [show mergeRun s n (l :: rest) = mergeRun (mergeStep s n l) (n + 1) rest from rfl,
      harith]
    exact hrec

theorem chain_le_all (x : EntitySpan) (l : List EntitySpan)
    (hwf : ∀ sp ∈ l, sp.start < sp.stop)
    (h : List.Chain (fun a b => a.stop ≤ b.start) x l) :
    ∀ b ∈ l, x.stop ≤ b.start := by
  induction l generalizing x with
  | nil =>
    intro b hb
    cases hb
  | cons y t ih =>
    rw [List.chain_cons] at h
    intro b hb
    rcases List.mem_cons.mp hb with rfl | hb'
    · exact h.1
    · have hy := ih y (fun sp hsp => hwf sp (List.mem_cons_of_mem _ hsp)) h.2 b hb'
      have hy2 : y.start < y.stop := hwf y (List.mem_cons_self _ _)
      have hx := h.1
      omega

theorem chain_pairwise (l : List EntitySpan)
    (hwf : ∀ sp ∈ l, sp.start < sp.stop)
    (hch : List.Chain' (fun a b => a.stop ≤ b.start) l) :
    l.Pairwise (fun a b => a.stop ≤ b.start) := by
  induction l with
  | nil => simp
  | cons a t ih =>
    have hch' : List.Chain (fun a b => a.stop ≤ b.start) a t := hch
    rw [List.pairwise_cons]
    refine ⟨chain_le_all a t (fun sp hsp => hwf sp (List.mem_cons_of_mem _ hsp)) hch', ?_⟩
    apply ih fun sp hsp => hwf sp (List.mem_cons_of_mem _ hsp)
    cases t with
    | nil => trivial
    | cons b t' => exact (List.chain_cons.mp hch').2

/-- Claim C7: every span emitted by the merger has
`start_token < end_token`, the spans are pairwise non-overlapping and
ordered by `start_token`, and no two consecutive spans both touch
(end of one equal to start of the next) and share a category. -/
theorem merger_emits_sorted_disjoint_spans (labels : List (Option String)) :
    (∀ sp ∈ mergeAll labels, sp.start < sp.stop) ∧
    (mergeAll labels).Pairwise (fun a b => a.stop ≤ b.start) ∧
    List.Chain' (fun a b => a.stop = b.start → a.label ≠ b.label) (mergeAll labels) := by
  have h0 : MergerInv mInit.entities mInit.entity.label mInit.entity.chunks
      mInit.inside 0 := by
    refine ⟨?_, ?_, ?_⟩
    · intro sp hsp
      cases hsp
    · exact trivial
    · intro h'
      cases h'
  obtain ⟨h1, h2, _⟩ := mergeRun_inv labels mInit 0 h0
  have hall : mergeAll labels = spansOf (mergeRun mInit 0 labels).entities := rfl
  rw [hall]
  refine ⟨fun sp hsp => (h1 sp hsp).1, ?_, ?_⟩
  · exact chain_pairwise _ (fun sp hsp => (h1 sp hsp).1)
      (h2.imp fun a b hab => hab.1)
  · exact h2.imp fun a b hab => hab.2

end Tei2Spacy
